import Mathlib

set_option linter.unusedVariables false

/-! Shallow embedding of the core of the Google Cloud Trace Grafana data-source
    plugin: the filter-expression translator and tokenizer
    (pkg/plugin/cloudtrace/cloudtrace.go), the trace retrieval client
    (ListTraces, ListProjects), and the result shaper (createTracesTableFrame,
    GetTraceName, GetTags from pkg/plugin/plugin.go and cloudtrace.go).
    Go strings are modelled as Lean strings, int64/int32 as Int, and the
    fallible Go (value, error) returns as Except. -/

namespace CloudTrace

/-- Whitespace characters matched by the whitespace class of the Go token
    regex in cloudtrace.go (Go regexp class matching tab, newline, form feed,
    carriage return and space). -/
def isSpaceCh (c : Char) : Bool :=
  c = ' ' || c = '\t' || c = '\n' || c = '\r' || c = '\x0c'

/-- A character a plain (unquoted) token atom may contain: anything neither
    whitespace nor a double quote, following the first alternative of the
    token regex. -/
def isPlainCh (c : Char) : Bool := !(isSpaceCh c) && !(c = '"')

/-- Consume the maximal leading run of plain characters (the greedy match of
    the first alternative of the token regex); returns the run and the rest. -/
def plainRun : List Char → List Char × List Char
  | [] => ([], [])
  | c :: cs =>
    if isPlainCh c then
      let (r, rest) := plainRun cs
      (c :: r, rest)
    else ([], c :: cs)

/-- Match the tail of a quoted atom: after an opening double quote, greedily
    consume a body in which every inner double quote is preceded by a
    backslash, up to the furthest possible closing double quote, mirroring the
    greedy backtracking of the quoted alternative of the token regex. Returns
    the consumed characters (closing quote included) and the rest, or none
    when no closing quote is reachable. -/
def quotedTail : List Char → Option (List Char × List Char)
  | [] => none
  | '"' :: cs => some (['"'], cs)
  | '\\' :: '"' :: cs =>
    match quotedTail cs with
    | some (m, rest) => some ('\\' :: '"' :: m, rest)
    | none => some (['\\', '"'], cs)
  | c :: cs =>
    match quotedTail cs with
    | some (m, rest) => some (c :: m, rest)
    | none => none

/-- One regex match attempt at the current position: the concatenation of
    consecutive atoms (plain runs and quoted atoms). An empty result means the
    regex cannot match here. The fuel only bounds recursion depth; every call
    site passes at least the length of the list, which always suffices since
    each recursive step consumes at least one character. -/
def matchTokenF : Nat → List Char → List Char × List Char
  | 0, l => ([], l)
  | _ + 1, [] => ([], [])
  | fuel + 1, c :: cs =>
    if isPlainCh c then
      let (run, rest) := plainRun (c :: cs)
      let (t, r) := matchTokenF fuel rest
      (run ++ t, r)
    else if c = '"' then
      match quotedTail cs with
      | some (m, rest) =>
        let (t, r) := matchTokenF fuel rest
        (('"' :: m) ++ t, r)
      | none => ([], c :: cs)
    else ([], c :: cs)

/-- One regex match attempt at the current position, with sufficient fuel. -/
def matchToken (l : List Char) : List Char × List Char := matchTokenF l.length l

/-- All matches of the token regex in order (re.FindAllString in
    GetListTracesFilter): attempt a match at each position, emit nonempty
    matches and continue after them, otherwise advance one character. -/
def findAllTokensF : Nat → List Char → List (List Char)
  | 0, _ => []
  | _ + 1, [] => []
  | fuel + 1, c :: cs =>
    let (t, rest) := matchToken (c :: cs)
    if t.isEmpty then findAllTokensF fuel cs
    else t :: findAllTokensF fuel rest

/-- All matches of the token regex in order, with sufficient fuel. -/
def findAllTokens (l : List Char) : List (List Char) := findAllTokensF l.length l

/-- Tokenization of the raw query text: re.FindAllString(queryText, -1). -/
def tokenizeQuery (s : String) : List String := (findAllTokens s.data).map String.mk

/-- Split a character list at the first colon (strings.SplitN(s, ":", 2)):
    none when the list has no colon, otherwise the parts before and after the
    first colon. -/
def splitFirstColon : List Char → Option (List Char × List Char)
  | [] => none
  | c :: cs =>
    if c = ':' then some ([], cs)
    else
      match splitFirstColon cs with
      | some (a, b) => some (c :: a, b)
      | none => none

/-- ASCII lowering of a string, used to compare a key against "label"
    (strings.ToLower in getFilterKeyValue). -/
def toLowerStr (s : String) : String := String.mk (s.data.map Char.toLower)

/-- The standardized service tag key namespace ("service." in cloudtrace.go). -/
def servicePfxStr : String := "service."

/-- The legacy GAE service tag key namespace ("g.co/gae/app/"). -/
def gaeServicePfxStr : String := "g.co/gae/app/"

/-- The OpenTelemetry service name label key. -/
def otelServiceKey : String := "service.name"

/-- The legacy GAE service name label key. -/
def gaeServiceKey : String := "g.co/gae/app/module"

/-- The legacy GAE service version label key. -/
def gaeServiceVersionKey : String := "g.co/gae/app/version"

/-- The OpenTelemetry HTTP method label key. -/
def otelMethodKey : String := "http.method"

/-- The legacy Cloud Trace HTTP method label key. -/
def cloudTraceMethodKey : String := "/http/method"

/-- Alias table from friendly filter keys to native Cloud Trace keys (the
    switch statement of getFilterKeyValue, a case-sensitive exact-match
    first-branch-wins chain with pass-through default). -/
def aliasKey (key : String) : String :=
  if key = "RootSpan" then "root"
  else if key = "SpanName" then "span"
  else if key = "HasLabel" then "label"
  else if key = "MinLatency" then "latency"
  else if key = "URL" then "url"
  else if key = "Method" then "method"
  else if key = "Version" then gaeServiceVersionKey
  else if key = "Service" then gaeServiceKey
  else if key = "Status" then "/http/status_code"
  else key

/-- The LABEL unwrapping step of getFilterKeyValue: when the key is
    case-insensitively "label", the value must itself split at a colon into
    the effective key and value; otherwise the pair passes through. -/
def labelUnwrap (qTFilter : String) (kl0 vl0 : List Char) : Except String (List Char × List Char) :=
  if toLowerStr (String.mk kl0) = "label" then
    match splitFirstColon vl0 with
    | none =>
      .error ("bad filter [" ++ qTFilter ++ "]. Must be in form LABEL:[key]:[value]")
    | some (kl2, vl2) => .ok (kl2, vl2)
  else .ok (kl0, vl0)

/-- The final step of getFilterKeyValue: for a value of at least two
    characters, a leading '+^' or '^+' pair moves onto the key normalized as
    "+^", and otherwise a leading single '+' or '^' moves onto the key; a
    shorter value is left untouched. -/
def moveSpecialChars (key : String) (vl : List Char) : String × String :=
  match vl with
  | c1 :: c2 :: vrest =>
    if (c2 = '^' && c1 = '+') || (c2 = '+' && c1 = '^') then
      ("+^" ++ key, String.mk vrest)
    else if c1 = '+' || c1 = '^' then
      (String.mk [c1] ++ key, String.mk (c2 :: vrest))
    else (key, String.mk vl)
  | _ => (key, String.mk vl)

/-- Translation of one filter token into a (key, value) pair for the Cloud
    Trace API (getFilterKeyValue in cloudtrace.go): split at the first colon,
    unwrap a LABEL:[key]:[value] form, apply the alias table, then move a
    leading special character of a value of at least two characters onto the
    key. -/
def getFilterKeyValue (qTFilter : String) : Except String (String × String) :=
  match splitFirstColon qTFilter.data with
  | none => .error ("bad filter [" ++ qTFilter ++ "]. Must be in form [key]:[value]")
  | some (kl0, vl0) =>
    match labelUnwrap qTFilter kl0 vl0 with
    | .error e => .error e
    | .ok (kl, vl) => .ok (moveSpecialChars (aliasKey (String.mk kl)) vl)

/-- Per-token loop of GetListTracesFilter: translate each token in order,
    stopping at the first error; on success produce the key:value strings. -/
def collectFilters : List String → Except String (List String)
  | [] => .ok []
  | f :: fs =>
    match getFilterKeyValue f with
    | .error e => .error e
    | .ok (k, v) =>
      match collectFilters fs with
      | .error e => .error e
      | .ok rest => .ok ((k ++ ":" ++ v) :: rest)

/-- Join a list of strings with a separator (strings.Join). -/
def strJoin (sep : String) : List String → String
  | [] => ""
  | [s] => s
  | s :: rest => s ++ sep ++ strJoin sep rest

/-- GetListTracesFilter from cloudtrace.go: tokenize the raw query text,
    translate every token, and join the translated tokens with single spaces.
    The Go return (s, nil) is modelled as .ok s, and ("", err) as .error err. -/
def GetListTracesFilter (queryText : String) : Except String String :=
  match collectFilters (tokenizeQuery queryText) with
  | .error e => .error e
  | .ok filters => .ok (strJoin " " filters)

/-- A span of a trace (tracepb.TraceSpan): identifiers, name, start and end
    times (modelled as unix milliseconds), and labels. Go's map[string]string
    is modelled as an association list with unique keys not enforced; lookup
    takes the first binding and missing keys yield the empty string, matching
    Go map indexing's zero value. -/
structure TraceSpan where
  SpanId : Nat
  ParentSpanId : Nat
  Name : String
  StartTime : Int
  EndTime : Int
  Labels : List (String × String)
deriving Repr, DecidableEq

/-- A trace (tracepb.Trace). -/
structure Trace where
  ProjectId : String
  TraceId : String
  Spans : List TraceSpan
deriving Repr, DecidableEq

/-- Go map indexing labels[key]: the value of the first binding of the key, or
    the empty string when the key is absent. -/
def lookupLabel (labels : List (String × String)) (key : String) : String :=
  match labels.find? (fun kv => kv.1 = key) with
  | some kv => kv.2
  | none => ""

/-- GetServiceName from cloudtrace.go: the OpenTelemetry service name label,
    falling back to the legacy GAE service label when absent or empty. -/
def GetServiceName (span : TraceSpan) : String :=
  let labels := span.Labels
  let serviceName := lookupLabel labels otelServiceKey
  if serviceName = "" then lookupLabel labels gaeServiceKey
  else serviceName

/-- getHTTPMethod from cloudtrace.go: the OpenTelemetry HTTP method label,
    falling back to the legacy Cloud Trace method label when absent or empty. -/
def getHTTPMethod (span : TraceSpan) : String :=
  let labels := span.Labels
  let httpMethod := lookupLabel labels otelMethodKey
  if httpMethod = "" then lookupLabel labels cloudTraceMethodKey
  else httpMethod

/-- GetTraceName from cloudtrace.go: "service: HTTP method name" with the
    service and method segments omitted when empty. -/
def GetTraceName (span : TraceSpan) : String :=
  let namePart := span.Name
  let servicePart0 := GetServiceName span
  let servicePart := if servicePart0 = "" then servicePart0 else servicePart0 ++ ": "
  let methodPart0 := getHTTPMethod span
  let methodPart := if methodPart0 = "" then methodPart0 else "HTTP " ++ methodPart0 ++ " "
  servicePart ++ methodPart ++ namePart

/-- GetSpanOperationName from cloudtrace.go: "HTTP method name" with the
    method segment omitted when empty. -/
def GetSpanOperationName (span : TraceSpan) : String :=
  let namePart := span.Name
  let methodPart0 := getHTTPMethod span
  let methodPart := if methodPart0 = "" then methodPart0 else "HTTP " ++ methodPart0 ++ " "
  methodPart ++ namePart

/-- Does a label key start with the given leading string? (strings.HasPrefix,
    written out over the character lists). -/
def hasPfx : List Char → List Char → Bool
  | [], _ => true
  | _ :: _, [] => false
  | p :: ps, c :: cs => p = c && hasPfx ps cs

/-- The test of GetTags deciding that a label is a service tag: its key starts
    with the standardized service namespace or the legacy GAE namespace. -/
def isServiceTagKey (key : String) : Bool :=
  hasPfx servicePfxStr.data key.data || hasPfx gaeServicePfxStr.data key.data

/-- The label loop of GetTags: distribute every label of the span, in order,
    into the service tag list or the span tag list. -/
def tagsPartition : List (String × String) → List (String × String) × List (String × String)
  | [] => ([], [])
  | kv :: rest =>
    let (s, p) := tagsPartition rest
    if isServiceTagKey kv.1 then (kv :: s, p) else (s, kv :: p)

/-- One character of a JSON string as produced by Go's encoding/json: quote,
    backslash, newline, carriage return and tab use two-character escapes,
    other control characters a \u00XX escape, the HTML-sensitive characters
    and the unicode line separators a \uXXXX escape, and everything else is
    literal. -/
def jsonEscapeChar (c : Char) : String :=
  if c = '"' then "\\\""
  else if c = '\\' then "\\\\"
  else if c = '\n' then "\\n"
  else if c = '\r' then "\\r"
  else if c = '\t' then "\\t"
  else if c = '<' then "\\u003c"
  else if c = '>' then "\\u003e"
  else if c = '&' then "\\u0026"
  else if c.toNat < 0x10 then "\\u000" ++ String.mk [Nat.digitChar c.toNat]
  else if c.toNat < 0x20 then "\\u001" ++ String.mk [Nat.digitChar (c.toNat - 0x10)]
  else if c.toNat = 0x2028 then "\\u2028"
  else if c.toNat = 0x2029 then "\\u2029"
  else String.mk [c]

/-- A JSON string literal for s, with Go encoding/json escaping. -/
def jsonStr (s : String) : String :=
  "\"" ++ String.join (s.data.map jsonEscapeChar) ++ "\""

/-- Go json.Marshal of one map[string]string{"key": k, "value": v} element:
    object keys are emitted in sorted order, so "key" precedes "value". -/
def jsonTagObj (kv : String × String) : String :=
  "\x7b" ++ jsonStr "key" ++ ":" ++ jsonStr kv.1 ++ "," ++ jsonStr "value" ++ ":" ++ jsonStr kv.2 ++ "\x7d"

/-- Go json.Marshal of a non-nil []map[string]string tag list: a JSON array,
    which is the two-character array "[]" when the list is empty (and never
    the JSON null, which json.Marshal reserves for nil slices). -/
def marshalTags (l : List (String × String)) : String :=
  "[" ++ strJoin "," (l.map jsonTagObj) ++ "]"

/-- GetTags from cloudtrace.go: partition the span's labels into service tags
    and span tags and serialize each side as a JSON array. json.Marshal cannot
    fail on []map[string]string, so the Go error result is always nil and the
    model returns the pair directly. -/
def GetTags (span : TraceSpan) : String × String :=
  let (serviceTagsMapArray, spanTagsMapArray) := tagsPartition span.Labels
  (marshalTags serviceTagsMapArray, marshalTags spanTagsMapArray)

/-- A time range of a traces query (TimeRange in cloudtrace.go), modelled in
    unix milliseconds. -/
structure TimeRange where
  From : Int
  To : Int
deriving Repr, DecidableEq

/-- TracesQuery from cloudtrace.go: the bounded trace-listing request. Limit
    is a Go int64 modelled as Int. -/
structure TracesQuery where
  ProjectID : String
  Filter : String
  Limit : Int
  TimeRange : TimeRange
deriving Repr, DecidableEq

/-- The single ListTracesRequest value built by Client.ListTraces; the page
    iterator issues every page request with this PageSize. -/
structure ListTracesRequest where
  ProjectId : String
  Filter : String
  StartTime : Int
  EndTime : Int
  OrderBy : String
  PageSize : Int
deriving Repr, DecidableEq

/-- The request Client.ListTraces sends: PageSize is
    int32(math.Min(float64(q.Limit), 1000)), which equals min q.Limit 1000 for
    every limit in the int32-exact range (the float64 rounding above 2^53
    cannot change the min because such limits exceed 1000). -/
def listTracesRequest (q : TracesQuery) : ListTracesRequest :=
  { ProjectId := q.ProjectID
    Filter := q.Filter
    StartTime := q.TimeRange.From
    EndTime := q.TimeRange.To
    OrderBy := "start desc"
    PageSize := min q.Limit 1000 }

/-- One outcome of the page iterator's Next call inside Client.ListTraces:
    either a trace, or a page-fetch error (iterator.Done is modelled as the
    end of the outcome list). -/
inductive NextResult where
  | ok (t : Trace)
  | iterErr
deriving Repr, DecidableEq

/-- The accumulation loop of Client.ListTraces: stop at iterator.Done or at
    any page error (which is only logged), append each trace and stop once the
    running count i reaches q.Limit. -/
def listTracesLoop (limit : Int) : Int → List Trace → List NextResult → List Trace
  | _, entries, [] => entries
  | _, entries, .iterErr :: _ => entries
  | i, entries, .ok t :: rest =>
    let entries1 := entries ++ [t]
    let i1 := i + 1
    if i1 ≥ limit then entries1 else listTracesLoop limit i1 entries1 rest

/-- Client.ListTraces from cloudtrace.go, with the remote iterator abstracted
    as an optional list of Next outcomes: a nil iterator yields the "nil
    response" error, and otherwise the accumulation loop runs with i = 0 and
    an empty entries slice. The Go return (entries, nil) is modelled as .ok
    entries and (nil, err) as .error err. -/
def ListTraces (q : TracesQuery) (it : Option (List NextResult)) : Except String (List Trace) :=
  match it with
  | none => .error "nil response"
  | some results => .ok (listTracesLoop q.Limit 0 [] results)

/-- A project as returned by the resource manager listing: its ID and
    lifecycle state. -/
structure RMProject where
  ProjectId : String
  LifecycleState : String
deriving Repr, DecidableEq

/-- The accumulation loop of Client.ListProjects: skip projects in a deletion
    lifecycle state and collect the IDs of the rest in order. -/
def listProjectsLoop : List RMProject → List String
  | [] => []
  | p :: rest =>
    if p.LifecycleState = "DELETE_REQUESTED" || p.LifecycleState = "DELETE_IN_PROGRESS" then
      listProjectsLoop rest
    else p.ProjectId :: listProjectsLoop rest

/-- Client.ListProjects from cloudtrace.go, with the remote listing abstracted
    as its result: a listing error is propagated unchanged, and a successful
    response is filtered by the accumulation loop. -/
def ListProjects (response : Except String (List RMProject)) : Except String (List String) :=
  match response with
  | .error e => .error e
  | .ok projects => .ok (listProjectsLoop projects)

/-- The four field value columns of the traceTable frame built by
    createTracesTableFrame in plugin.go, in declaration order: Trace ID, Trace
    name, Start time and Latency (ms). -/
structure TracesTableFrame where
  traceIDs : List String
  traceNames : List String
  startTimes : List Int
  latencies : List Int
deriving Repr, DecidableEq

/-- createTracesTableFrame from plugin.go: for every trace the trace ID is
    appended to the Trace ID field, then a trace without spans is skipped
    (only logged) before the remaining three fields receive the root span's
    name, start time and millisecond latency. -/
def createTracesTableFrame : List Trace → TracesTableFrame
  | [] => ⟨[], [], [], []⟩
  | t :: ts =>
    let f := createTracesTableFrame ts
    match t.Spans with
    | [] => { f with traceIDs := t.TraceId :: f.traceIDs }
    | rootSpan :: _ =>
      { traceIDs := t.TraceId :: f.traceIDs
        traceNames := GetTraceName rootSpan :: f.traceNames
        startTimes := rootSpan.StartTime :: f.startTimes
        latencies := (rootSpan.EndTime - rootSpan.StartTime) :: f.latencies }

/-- A token is simple when it is nonempty and all of its characters are plain
    (no whitespace, no double quote); the token regex matches such a token
    whole. -/
def simpleToken (s : String) : Prop :=
  s.data ≠ [] ∧ ∀ c ∈ s.data, isPlainCh c = true

instance (s : String) : Decidable (simpleToken s) :=
  inferInstanceAs (Decidable (s.data ≠ [] ∧ ∀ c ∈ s.data, isPlainCh c = true))

/-- A position where no token atom can start: the end of the input or a
    whitespace character. -/
def restStops : List Char → Prop
  | [] => True
  | c :: _ => isSpaceCh c = true

/-- Does the value avoid beginning with one of the special filter characters
    '+' and '^'? -/
def headNotSpecial (v : String) : Bool :=
  match v.data with
  | [] => true
  | c :: _ => !(c = '+' || c = '^')

/-- Character-level join of tokens by single spaces, the image of
    strings.Join(tokens, " ") on the underlying character lists. -/
def charJoin : List (List Char) → List Char
  | [] => []
  | [t] => t
  | t :: rest => t ++ ' ' :: charJoin rest

/-! Helper lemmas about the retrieval loop. -/

theorem listTracesLoop_length_le (results : List NextResult) :
    ∀ (limit i : Int) (entries : List Trace), i = entries.length → i < limit →
    ((listTracesLoop limit i entries results).length : Int) ≤ limit := by
  induction results with
  | nil =>
    intro limit i entries hi hlt
    simp only [listTracesLoop]
    omega
  | cons r rest ih =>
    intro limit i entries hi hlt
    cases r with
    | iterErr =>
      simp only [listTracesLoop]
      omega
    | ok t =>
      simp only [listTracesLoop]
      by_cases h : i + 1 ≥ limit
      · rw [if_pos h]
        simp only [List.length_append, List.length_cons, List.length_nil]
        push_cast
        omega
      · rw [if_neg h]
        refine ih limit (i + 1) (entries ++ [t]) ?_ ?_
        · simp only [List.length_append, List.length_cons, List.length_nil]
          push_cast
          omega
        · omega

theorem listTracesLoop_stops_at_error (ts : List Trace) :
    ∀ (limit i : Int) (entries : List Trace) (rest : List NextResult),
    i = entries.length → (i + ts.length : Int) < limit →
    listTracesLoop limit i entries (ts.map .ok ++ .iterErr :: rest) = entries ++ ts := by
  induction ts with
  | nil =>
    intro limit i entries rest hi hlt
    simp only [List.map_nil, List.nil_append, listTracesLoop, List.append_nil]
  | cons t ts ih =>
    intro limit i entries rest hi hlt
    simp only [List.map_cons, List.cons_append, listTracesLoop, List.append_eq]
    rw [if_neg (by simp only [List.length_cons] at hlt; push_cast at hlt; omega)]
    rw [ih limit (i + 1) (entries ++ [t]) rest
      (by simp only [List.length_append, List.length_cons, List.length_nil]; push_cast; omega)
      (by simp only [List.length_cons] at hlt; push_cast at hlt ⊢; omega)]
    simp

/-- C1: for every TracesQuery with limit > 0, ListTraces returns at most limit
    traces, and the request it hands the page iterator carries page size
    min(limit, 1000), which never exceeds 1000 however large the limit is. -/
theorem listTraces_limit_and_page_size (q : TracesQuery) (it : Option (List NextResult))
    (l : List Trace) (hpos : 0 < q.Limit) (hok : ListTraces q it = .ok l) :
    ((l.length : Int) ≤ q.Limit) ∧
    (listTracesRequest q).PageSize = min q.Limit 1000 ∧
    (listTracesRequest q).PageSize ≤ 1000 := by
  refine ⟨?_, rfl, min_le_right _ _⟩
  cases it with
  | none => simp [ListTraces] at hok
  | some results =>
    simp only [ListTraces, Except.ok.injEq] at hok
    rw [← hok]
    exact listTracesLoop_length_le results q.Limit 0 [] (by simp) hpos

/-- Witness for C1 at a concrete query with limit 2 and three available
    traces. -/
theorem listTraces_limit_and_page_size_witness :
    ((([⟨"p", "t1", []⟩, ⟨"p", "t2", []⟩] : List Trace).length : Int) ≤
      (TracesQuery.mk "p" "" 2 ⟨0, 0⟩).Limit) ∧
    (listTracesRequest ⟨"p", "", 2, ⟨0, 0⟩⟩).PageSize = min (TracesQuery.mk "p" "" 2 ⟨0, 0⟩).Limit 1000 ∧
    (listTracesRequest ⟨"p", "", 2, ⟨0, 0⟩⟩).PageSize ≤ 1000 :=
  listTraces_limit_and_page_size ⟨"p", "", 2, ⟨0, 0⟩⟩
    (some [.ok ⟨"p", "t1", []⟩, .ok ⟨"p", "t2", []⟩, .ok ⟨"p", "t3", []⟩])
    [⟨"p", "t1", []⟩, ⟨"p", "t2", []⟩] (by decide) rfl

/-- C2: a page-fetch error hit after some traces were already accumulated (and
    before the limit was reached) stops pagination and returns the accumulated
    traces with no error: the page error is dropped and nothing is discarded. -/
theorem listTraces_partial_success (q : TracesQuery) (ts : List Trace)
    (rest : List NextResult) (hne : ts ≠ []) (hlt : (ts.length : Int) < q.Limit) :
    ListTraces q (some (ts.map .ok ++ .iterErr :: rest)) = .ok ts := by
  simp only [ListTraces, Except.ok.injEq]
  rw [listTracesLoop_stops_at_error ts q.Limit 0 [] rest (by simp) (by omega)]
  simp

/-- Witness for C2: one trace accumulated, then a page error, limit 5. -/
theorem listTraces_partial_success_witness :
    ListTraces ⟨"p", "", 5, ⟨0, 0⟩⟩
      (some (([⟨"p", "t1", []⟩] : List Trace).map .ok ++ .iterErr :: [])) =
      .ok [⟨"p", "t1", []⟩] :=
  listTraces_partial_success ⟨"p", "", 5, ⟨0, 0⟩⟩ [⟨"p", "t1", []⟩] []
    (by decide) (by decide)

/-- C9: the only error ListTraces can return is the "nil response" error for a
    nil iterator; every page-fetch error, including one on the very first
    Next call, only ends the loop and yields the accumulated (possibly empty)
    traces with a nil error. -/
theorem listTraces_error_only_nil_response (q : TracesQuery) (it : Option (List NextResult)) :
    (∀ e, ListTraces q it = .error e → it = none ∧ e = "nil response") ∧
    (∀ rest, ListTraces q (some (.iterErr :: rest)) = .ok []) := by
  constructor
  · intro e h
    cases it with
    | none =>
      simp only [ListTraces, Except.error.injEq] at h
      exact ⟨rfl, h.symm⟩
    | some results => simp [ListTraces] at h
  · intro rest
    simp [ListTraces, listTracesLoop]

/-- Witness for C9: the nil-iterator error case and an error on the first
    page, both at a concrete query. -/
theorem listTraces_error_only_nil_response_witness :
    ((none : Option (List NextResult)) = none ∧ "nil response" = "nil response") ∧
    ListTraces ⟨"p", "", 5, ⟨0, 0⟩⟩ (some [.iterErr]) = .ok [] :=
  ⟨(listTraces_error_only_nil_response ⟨"p", "", 5, ⟨0, 0⟩⟩ none).1 "nil response" rfl,
   (listTraces_error_only_nil_response ⟨"p", "", 5, ⟨0, 0⟩⟩ (some [.iterErr])).2 []⟩

/-- C10: with a zero or negative limit, as soon as the iterator yields a first
    trace ListTraces returns exactly that one trace: the append happens before
    the count-versus-limit check, so the check can only stop the loop after
    the first append. -/
theorem listTraces_nonpositive_limit_returns_one (q : TracesQuery) (t : Trace)
    (rest : List NextResult) (h : q.Limit ≤ 0) :
    ListTraces q (some (.ok t :: rest)) = .ok [t] := by
  simp only [ListTraces, listTracesLoop, List.nil_append, Except.ok.injEq]
  rw [if_pos (by omega)]

/-- Witness for C10 at limit 0 with two traces available. -/
theorem listTraces_nonpositive_limit_returns_one_witness :
    ListTraces ⟨"p", "", 0, ⟨0, 0⟩⟩ (some [.ok ⟨"p", "t1", []⟩, .ok ⟨"p", "t2", []⟩]) =
      .ok [⟨"p", "t1", []⟩] :=
  listTraces_nonpositive_limit_returns_one ⟨"p", "", 0, ⟨0, 0⟩⟩ ⟨"p", "t1", []⟩
    [.ok ⟨"p", "t2", []⟩] (by decide)

/-- C8: ListProjects returns exactly the IDs of the listed projects whose
    lifecycle state is neither DELETE_REQUESTED nor DELETE_IN_PROGRESS,
    in their original order. -/
theorem listProjects_excludes_deletion_states (ps : List RMProject) :
    ListProjects (.ok ps) =
      .ok ((ps.filter (fun p =>
        !(p.LifecycleState = "DELETE_REQUESTED" || p.LifecycleState = "DELETE_IN_PROGRESS"))).map
          (fun p => p.ProjectId)) := by
  simp only [ListProjects, Except.ok.injEq]
  induction ps with
  | nil => rfl
  | cons p rest ih =>
    simp only [listProjectsLoop, List.filter_cons]
    cases hb : ((p.LifecycleState = "DELETE_REQUESTED" || p.LifecycleState = "DELETE_IN_PROGRESS") : Bool) with
    | true => simp [hb, ih]
    | false => simp [hb, ih]

theorem tagsPartition_eq (l : List (String × String)) :
    tagsPartition l =
      (l.filter (fun kv => isServiceTagKey kv.1),
       l.filter (fun kv => !(isServiceTagKey kv.1))) := by
  induction l with
  | nil => rfl
  | cons kv rest ih =>
    simp only [tagsPartition, ih, List.filter_cons]
    cases hb : isServiceTagKey kv.1 with
    | true => simp [hb]
    | false => simp [hb]

/-- C7: GetTags sends every label whose key starts with the service namespace
    or the GAE namespace to the service tags and every other label to the span
    tags (so each label lands in exactly one side), and both sides are
    serialized as JSON arrays of key/value objects, the empty side as the
    empty array "[]" rather than null or nothing. -/
theorem getTags_partition_and_empty_array (span : TraceSpan) :
    GetTags span =
      (marshalTags (span.Labels.filter (fun kv => isServiceTagKey kv.1)),
       marshalTags (span.Labels.filter (fun kv => !(isServiceTagKey kv.1)))) ∧
    marshalTags [] = "[]" := by
  refine ⟨?_, rfl⟩
  simp [GetTags, tagsPartition_eq]

/-- C3 (evidence of the divergence): a batch holding a zero-span trace "t0"
    and a normal trace "t1" produces a Trace ID column with both IDs but only
    one entry in each of the Trace name, Start time and Latency columns: the
    zero-span trace contributes its trace ID even though it is supposed to
    contribute no row at all. -/
theorem createTracesTableFrame_zero_span_adds_trace_id :
    createTracesTableFrame
      [⟨"proj", "t0", []⟩, ⟨"proj", "t1", [⟨1, 0, "s", 10, 11, []⟩]⟩] =
      ⟨["t0", "t1"], ["s"], [10], [1]⟩ := rfl

theorem mk_data (s : String) : String.mk s.data = s := rfl

theorem data_append (a b : String) : (a ++ b).data = a.data ++ b.data := rfl

theorem splitFirstColon_left (k v : List Char) (hk : ':' ∉ k) :
    splitFirstColon (k ++ ':' :: v) = some (k, v) := by
  induction k with
  | nil => simp [splitFirstColon]
  | cons c cs ih =>
    have hc : ¬(c = ':') := fun h => hk (h ▸ List.mem_cons_self c cs)
    simp only [List.cons_append, splitFirstColon, List.append_eq]
    rw [if_neg hc, ih (fun h => hk (List.mem_cons_of_mem c h))]

theorem getFilterKeyValue_eval (k : String) (v : List Char) (hk : ':' ∉ k.data)
    (hlabel : toLowerStr k ≠ "label") :
    getFilterKeyValue (k ++ ":" ++ String.mk v) = .ok (moveSpecialChars (aliasKey k) v) := by
  have hdata : (k ++ ":" ++ String.mk v).data = k.data ++ ':' :: v := by
    simp only [data_append, List.append_assoc, List.singleton_append]
  simp only [getFilterKeyValue, hdata, splitFirstColon_left k.data v hk, labelUnwrap, mk_data]
  rw [if_neg hlabel]

/-- C5 (counterexample): a value that is exactly the one character "+" is
    shorter than two characters, so getFilterKeyValue returns the token
    unchanged instead of moving the '+' onto the key as the claim states. -/
theorem getFilterKeyValue_single_special_unchanged :
    getFilterKeyValue "key1:+" = .ok ("key1", "+") ∧
    (("key1", "+") : String × String) ≠ ("+key1", "") :=
  ⟨rfl, by decide⟩

/-- C5 (amended): for a token key:value whose key is colon-free and not
    case-insensitively "label", a value of at least two characters beginning
    with the pair '+^' or '^+' moves the normalized pair "+^" onto the front
    of the alias-mapped key and strips it from the value; otherwise a value of
    at least two characters beginning with a single '+' or '^' moves that one
    character onto the key; and a value of fewer than two characters —
    including a value that is exactly "+" or "^" — is returned unchanged. -/
theorem getFilterKeyValue_special_moves (k : String) (hk : ':' ∉ k.data)
    (hlabel : toLowerStr k ≠ "label") :
    (∀ c1 c2 vrest, ((c1 = '+' ∧ c2 = '^') ∨ (c1 = '^' ∧ c2 = '+')) →
      getFilterKeyValue (k ++ ":" ++ String.mk (c1 :: c2 :: vrest)) =
        .ok ("+^" ++ aliasKey k, String.mk vrest)) ∧
    (∀ c1 c2 vrest, (c1 = '+' ∨ c1 = '^') →
      ¬((c1 = '+' ∧ c2 = '^') ∨ (c1 = '^' ∧ c2 = '+')) →
      getFilterKeyValue (k ++ ":" ++ String.mk (c1 :: c2 :: vrest)) =
        .ok (String.mk [c1] ++ aliasKey k, String.mk (c2 :: vrest))) ∧
    (∀ c, getFilterKeyValue (k ++ ":" ++ String.mk [c]) = .ok (aliasKey k, String.mk [c])) := by
  refine ⟨?_, ?_, ?_⟩
  · intro c1 c2 vrest hpair
    rw [getFilterKeyValue_eval k (c1 :: c2 :: vrest) hk hlabel]
    have hb : ((c2 = '^' && c1 = '+') || (c2 = '+' && c1 = '^')) = true := by
      rcases hpair with ⟨h1, h2⟩ | ⟨h1, h2⟩ <;> simp [h1, h2]
    simp [moveSpecialChars, hb]
  · intro c1 c2 vrest hone hpair
    rw [getFilterKeyValue_eval k (c1 :: c2 :: vrest) hk hlabel]
    have hb : ((c2 = '^' && c1 = '+') || (c2 = '+' && c1 = '^')) = false := by
      rcases hone with h1 | h1
      · subst h1
        have h2 : ¬(c2 = '^') := fun hc => hpair (Or.inl ⟨rfl, hc⟩)
        simp [h2]
      · subst h1
        have h2 : ¬(c2 = '+') := fun hc => hpair (Or.inr ⟨rfl, hc⟩)
        simp [h2]
    have hb1 : (c1 = '+' || c1 = '^') = true := by
      rcases hone with h1 | h1 <;> simp [h1]
    simp [moveSpecialChars, hb, hb1]
  · intro c
    rw [getFilterKeyValue_eval k [c] hk hlabel]
    rfl

/-- Witness for the amended C5 at key "key1" and value "+^v". -/
theorem getFilterKeyValue_special_moves_witness :
    getFilterKeyValue ("key1" ++ ":" ++ String.mk ['+', '^', 'v']) =
      .ok ("+^" ++ aliasKey "key1", String.mk ['v']) :=
  (getFilterKeyValue_special_moves "key1" (by decide) (by decide)).1 '+' '^' ['v']
    (Or.inl ⟨rfl, rfl⟩)

theorem plainRun_append (tl rest : List Char) (h2 : ∀ c ∈ tl, isPlainCh c = true)
    (h3 : restStops rest) : plainRun (tl ++ rest) = (tl, rest) := by
  induction tl with
  | nil =>
    cases rest with
    | nil => rfl
    | cons c r =>
      have hsp : isSpaceCh c = true := h3
      have hpl : isPlainCh c = false := by simp [isPlainCh, hsp]
      simp only [List.nil_append, plainRun, hpl]
      simp
  | cons c cs ih =>
    have hpl : isPlainCh c = true := h2 c (List.mem_cons_self c cs)
    simp only [List.cons_append, plainRun, hpl, List.append_eq,
      ih (fun x hx => h2 x (List.mem_cons_of_mem c hx))]
    simp

theorem matchTokenF_stop (rest : List Char) (h : restStops rest) :
    ∀ fuel, matchTokenF fuel rest = ([], rest) := by
  intro fuel
  cases fuel with
  | zero => rfl
  | succ n =>
    cases rest with
    | nil => rfl
    | cons c r =>
      have hsp : isSpaceCh c = true := h
      have hpl : isPlainCh c = false := by simp [isPlainCh, hsp]
      have hq : ¬(c = '"') := by
        intro hc
        subst hc
        simp [isSpaceCh] at hsp
      simp only [matchTokenF, hpl]
      simp [hq]

theorem matchTokenF_plain (fuel : Nat) (tl rest : List Char) (h1 : tl ≠ [])
    (h2 : ∀ c ∈ tl, isPlainCh c = true) (h3 : restStops rest) :
    matchTokenF (fuel + 1) (tl ++ rest) = (tl, rest) := by
  cases tl with
  | nil => exact absurd rfl h1
  | cons c cs =>
    have hpl : isPlainCh c = true := h2 c (List.mem_cons_self c cs)
    have hpr : plainRun (c :: (cs ++ rest)) = (c :: cs, rest) := by
      have h := plainRun_append (c :: cs) rest h2 h3
      simpa using h
    simp only [List.cons_append, matchTokenF, hpl, List.append_eq, hpr,
      matchTokenF_stop rest h3 fuel]
    simp

theorem matchToken_plain (tl rest : List Char) (h1 : tl ≠ [])
    (h2 : ∀ c ∈ tl, isPlainCh c = true) (h3 : restStops rest) :
    matchToken (tl ++ rest) = (tl, rest) := by
  unfold matchToken
  cases tl with
  | nil => exact absurd rfl h1
  | cons c cs =>
    have hlen : (c :: cs ++ rest).length = (cs.length + rest.length) + 1 := by
      simp only [List.length_append, List.length_cons]
      omega
    rw [hlen]
    exact matchTokenF_plain (cs.length + rest.length) (c :: cs) rest h1 h2 h3

theorem findAllTokensF_nil : ∀ fuel, findAllTokensF fuel [] = [] := by
  intro fuel
  cases fuel <;> rfl

theorem findAllTokensF_charJoin (ts : List (List Char)) :
    ∀ fuel, (∀ t ∈ ts, t ≠ [] ∧ ∀ c ∈ t, isPlainCh c = true) →
    (charJoin ts).length ≤ fuel →
    findAllTokensF fuel (charJoin ts) = ts := by
  induction ts with
  | nil =>
    intro fuel _ _
    exact findAllTokensF_nil fuel
  | cons t ts ih =>
    intro fuel hprops hfuel
    obtain ⟨hne, hplain⟩ := hprops t (List.mem_cons_self t ts)
    cases ts with
    | nil =>
      cases t with
      | nil => exact absurd rfl hne
      | cons c cs =>
        have hj : charJoin [c :: cs] = c :: cs := rfl
        rw [hj] at hfuel ⊢
        cases fuel with
        | zero => simp at hfuel
        | succ n =>
          have hm : matchToken (c :: cs) = (c :: cs, []) := by
            have h := matchToken_plain (c :: cs) [] hne hplain trivial
            simpa using h
          simp only [findAllTokensF, hm]
          simp [findAllTokensF_nil n]
    | cons t2 ts2 =>
      cases t with
      | nil => exact absurd rfl hne
      | cons c cs =>
        have hj : charJoin ((c :: cs) :: t2 :: ts2) = (c :: cs) ++ ' ' :: charJoin (t2 :: ts2) := rfl
        rw [hj] at hfuel ⊢
        have hlen : ((c :: cs) ++ ' ' :: charJoin (t2 :: ts2)).length =
            cs.length + 1 + (1 + (charJoin (t2 :: ts2)).length) := by
          simp only [List.length_append, List.length_cons]
          omega
        rw [hlen] at hfuel
        obtain ⟨n, hn⟩ : ∃ n, fuel = n + 1 := ⟨fuel - 1, by omega⟩
        subst hn
        have hstop : restStops (' ' :: charJoin (t2 :: ts2)) := by
          show isSpaceCh ' ' = true
          decide
        have hm : matchToken ((c :: cs) ++ ' ' :: charJoin (t2 :: ts2)) =
            (c :: cs, ' ' :: charJoin (t2 :: ts2)) :=
          matchToken_plain (c :: cs) (' ' :: charJoin (t2 :: ts2)) hne hplain hstop
        rw [show ((c :: cs) ++ ' ' :: charJoin (t2 :: ts2)) =
          c :: (cs ++ ' ' :: charJoin (t2 :: ts2)) from rfl] at hm ⊢
        simp only [findAllTokensF, hm]
        simp only [List.isEmpty_cons, Bool.false_eq_true, if_false]
        obtain ⟨m, hmn⟩ : ∃ m, n = m + 1 := ⟨n - 1, by omega⟩
        subst hmn
        have hm2 : matchToken (' ' :: charJoin (t2 :: ts2)) =
            ([], ' ' :: charJoin (t2 :: ts2)) := by
          unfold matchToken
          exact matchTokenF_stop (' ' :: charJoin (t2 :: ts2)) hstop _
        simp only [findAllTokensF, hm2]
        simp only [List.isEmpty_nil, if_true]
        rw [ih m (fun u hu => hprops u (List.mem_cons_of_mem (c :: cs) hu)) (by omega)]

theorem strJoin_data (us : List String) :
    (strJoin " " us).data = charJoin (us.map String.data) := by
  induction us with
  | nil => rfl
  | cons u us ihu =>
    cases us with
    | nil => rfl
    | cons u2 us2 =>
      have h1 : strJoin " " (u :: u2 :: us2) = u ++ " " ++ strJoin " " (u2 :: us2) := rfl
      have h2 : charJoin ((u :: u2 :: us2).map String.data) =
          u.data ++ ' ' :: charJoin ((u2 :: us2).map String.data) := rfl
      rw [h1, h2, data_append, data_append, ← ihu]
      simp [List.append_assoc]

theorem map_mk_data (ts : List String) : (ts.map String.data).map String.mk = ts := by
  induction ts with
  | nil => rfl
  | cons a l ih => simp [mk_data, ih]

theorem tokenizeQuery_strJoin (ts : List String) (h : ∀ t ∈ ts, simpleToken t) :
    tokenizeQuery (strJoin " " ts) = ts := by
  unfold tokenizeQuery findAllTokens
  rw [strJoin_data ts]
  rw [findAllTokensF_charJoin (ts.map String.data) _
    (by
      intro t ht
      obtain ⟨s, hs, rfl⟩ := List.mem_map.1 ht
      exact ⟨(h s hs).1, (h s hs).2⟩)
    (le_refl _)]
  exact map_mk_data ts

theorem labelUnwrap_error_shape (qT : String) (kl0 vl0 : List Char) (e : String)
    (h : labelUnwrap qT kl0 vl0 = .error e) :
    e = "bad filter [" ++ qT ++ "]. Must be in form LABEL:[key]:[value]" := by
  unfold labelUnwrap at h
  by_cases hl : toLowerStr (String.mk kl0) = "label"
  · rw [if_pos hl] at h
    cases hs : splitFirstColon vl0 with
    | none =>
      rw [hs] at h
      simp only [Except.error.injEq] at h
      exact h.symm
    | some kv =>
      obtain ⟨a, b⟩ := kv
      rw [hs] at h
      simp at h
  · rw [if_neg hl] at h
    simp at h

theorem getFilterKeyValue_error_shape (t e : String)
    (h : getFilterKeyValue t = .error e) :
    e = "bad filter [" ++ t ++ "]. Must be in form [key]:[value]" ∨
    e = "bad filter [" ++ t ++ "]. Must be in form LABEL:[key]:[value]" := by
  unfold getFilterKeyValue at h
  split at h
  · simp only [Except.error.injEq] at h
    exact Or.inl h.symm
  · rename_i kl0 vl0 hs
    split at h
    · rename_i e2 hu
      simp only [Except.error.injEq] at h
      exact Or.inr (h ▸ labelUnwrap_error_shape t kl0 vl0 e2 hu)
    · rename_i kl vl hu
      simp at h

theorem collectFilters_first_error (pre : List String) (tok : String) (post : List String)
    (e : String) (hpre : ∀ s ∈ pre, ∃ kv, getFilterKeyValue s = .ok kv)
    (herr : getFilterKeyValue tok = .error e) :
    collectFilters (pre ++ tok :: post) = .error e := by
  induction pre with
  | nil => simp [collectFilters, herr]
  | cons p ps ih =>
    obtain ⟨kv, hkv⟩ := hpre p (List.mem_cons_self p ps)
    simp only [List.cons_append, collectFilters, hkv, List.append_eq]
    rw [ih (fun s hs => hpre s (List.mem_cons_of_mem p hs))]

/-- C6: a query text made of simple tokens with at least one malformed token
    (no colon, or a LABEL form without an inner colon) translates to the empty
    native filter together with the error of the first offending token in
    input order, whose message has one of the two documented forms; no partial
    output survives (the Go function returns "" exactly when it returns an
    error, which the Except encoding captures). -/
theorem getListTracesFilter_first_bad_token (pre : List String) (tok : String)
    (post : List String) (e : String)
    (hsimple : ∀ s ∈ pre ++ tok :: post, simpleToken s)
    (hpre : ∀ s ∈ pre, ∃ kv, getFilterKeyValue s = .ok kv)
    (herr : getFilterKeyValue tok = .error e) :
    GetListTracesFilter (strJoin " " (pre ++ tok :: post)) = .error e ∧
    (e = "bad filter [" ++ tok ++ "]. Must be in form [key]:[value]" ∨
     e = "bad filter [" ++ tok ++ "]. Must be in form LABEL:[key]:[value]") := by
  constructor
  · unfold GetListTracesFilter
    rw [tokenizeQuery_strJoin _ hsimple,
      collectFilters_first_error pre tok post e hpre herr]
  · exact getFilterKeyValue_error_shape tok e herr

/-- Witness for C6: a good token, then "badfilter", then another good token. -/
theorem getListTracesFilter_first_bad_token_witness :
    GetListTracesFilter (strJoin " " (["a:b"] ++ "badfilter" :: ["c:d"])) =
      .error "bad filter [badfilter]. Must be in form [key]:[value]" ∧
    ("bad filter [badfilter]. Must be in form [key]:[value]" =
       "bad filter [" ++ "badfilter" ++ "]. Must be in form [key]:[value]" ∨
     "bad filter [badfilter]. Must be in form [key]:[value]" =
       "bad filter [" ++ "badfilter" ++ "]. Must be in form LABEL:[key]:[value]") :=
  getListTracesFilter_first_bad_token ["a:b"] "badfilter" ["c:d"]
    "bad filter [badfilter]. Must be in form [key]:[value]"
    (by decide)
    (by
      intro s hs
      rw [List.mem_singleton] at hs
      subst hs
      exact ⟨("a", "b"), rfl⟩)
    rfl

theorem splitFirstColon_eq (l : List Char) :
    ∀ a b, splitFirstColon l = some (a, b) → l = a ++ ':' :: b ∧ ':' ∉ a := by
  induction l with
  | nil => intro a b h; simp [splitFirstColon] at h
  | cons c cs ih =>
    intro a b h
    simp only [splitFirstColon] at h
    by_cases hc : c = ':'
    · rw [if_pos hc] at h
      simp only [Option.some.injEq, Prod.mk.injEq] at h
      obtain ⟨ha, hb⟩ := h
      subst ha
      subst hb
      exact ⟨by rw [hc]; simp, by simp⟩
    · rw [if_neg hc] at h
      cases hs2 : splitFirstColon cs with
      | none => rw [hs2] at h; simp at h
      | some ab2 =>
        obtain ⟨a2, b2⟩ := ab2
        rw [hs2] at h
        simp only [Option.some.injEq, Prod.mk.injEq] at h
        obtain ⟨ha, hb⟩ := h
        obtain ⟨heq, hnc⟩ := ih a2 b2 hs2
        subst hb
        rw [← ha]
        constructor
        · rw [heq]
          simp
        · intro hmem
          rcases List.mem_cons.1 hmem with h1 | h1
          · exact hc h1.symm
          · exact hnc h1

theorem aliasKey_no_colon (k : String) (hk : ':' ∉ k.data) : ':' ∉ (aliasKey k).data := by
  unfold aliasKey
  split_ifs <;> first | decide | exact hk

theorem aliasKey_chars (k : String) (hk : ∀ c ∈ k.data, isPlainCh c = true) :
    ∀ c ∈ (aliasKey k).data, isPlainCh c = true := by
  unfold aliasKey
  split_ifs <;> first | decide | exact hk

theorem labelUnwrap_ok_sub (qT : String) (kl0 vl0 kl vl : List Char)
    (h : labelUnwrap qT kl0 vl0 = .ok (kl, vl)) :
    (kl = kl0 ∧ vl = vl0) ∨ (vl0 = kl ++ ':' :: vl ∧ ':' ∉ kl) := by
  unfold labelUnwrap at h
  by_cases hl : toLowerStr (String.mk kl0) = "label"
  · rw [if_pos hl] at h
    cases hs : splitFirstColon vl0 with
    | none => rw [hs] at h; simp at h
    | some ab =>
      obtain ⟨a, b⟩ := ab
      rw [hs] at h
      simp only [Except.ok.injEq, Prod.mk.injEq] at h
      obtain ⟨h1, h2⟩ := h
      exact Or.inr (by rw [← h1, ← h2]; exact splitFirstColon_eq vl0 a b hs)
  · rw [if_neg hl] at h
    simp only [Except.ok.injEq, Prod.mk.injEq] at h
    exact Or.inl ⟨h.1.symm, h.2.symm⟩

theorem moveSpecialChars_chars (key : String) (vl : List Char)
    (hkey : ∀ c ∈ key.data, isPlainCh c = true) (hv : ∀ c ∈ vl, isPlainCh c = true) :
    (∀ c ∈ (moveSpecialChars key vl).1.data, isPlainCh c = true) ∧
    (∀ c ∈ (moveSpecialChars key vl).2.data, isPlainCh c = true) := by
  cases vl with
  | nil =>
    refine ⟨hkey, ?_⟩
    intro c hc
    simp [moveSpecialChars] at hc
  | cons c1 tail =>
    cases tail with
    | nil =>
      refine ⟨hkey, ?_⟩
      intro c hc
      have hc2 : c = c1 := by simpa [moveSpecialChars] using hc
      rw [hc2]
      exact hv c1 (by simp)
    | cons c2 rest =>
      by_cases h1 : ((c2 = '^' && c1 = '+') || (c2 = '+' && c1 = '^')) = true
      · rw [show moveSpecialChars key (c1 :: c2 :: rest) = ("+^" ++ key, String.mk rest) from by
          simp [moveSpecialChars, h1]]
        constructor
        · intro c hc
          rw [data_append] at hc
          rcases List.mem_append.1 hc with ha | hb
          · have : c = '+' ∨ c = '^' := by simpa using ha
            rcases this with rfl | rfl <;> decide
          · exact hkey c hb
        · intro c hc
          have hcr : c ∈ rest := hc
          exact hv c (List.mem_cons_of_mem c1 (List.mem_cons_of_mem c2 hcr))
      · by_cases h2 : (c1 = '+' || c1 = '^') = true
        · rw [show moveSpecialChars key (c1 :: c2 :: rest) =
              (String.mk [c1] ++ key, String.mk (c2 :: rest)) from by
            simp only [moveSpecialChars, h1]
            simp [h2]]
          constructor
          · intro c hc
            rw [data_append] at hc
            rcases List.mem_append.1 hc with ha | hb
            · have hcc : c = c1 := by simpa using ha
              rw [hcc]
              exact hv c1 (by simp)
            · exact hkey c hb
          · intro c hc
            have hcr : c ∈ c2 :: rest := hc
            exact hv c (List.mem_cons_of_mem c1 hcr)
        · rw [show moveSpecialChars key (c1 :: c2 :: rest) = (key, String.mk (c1 :: c2 :: rest)) from by
            simp only [moveSpecialChars, h1]
            simp [h2]]
          exact ⟨hkey, hv⟩

theorem moveSpecialChars_no_colon (key : String) (vl : List Char)
    (hk : ':' ∉ key.data) : ':' ∉ (moveSpecialChars key vl).1.data := by
  cases vl with
  | nil => exact hk
  | cons c1 tail =>
    cases tail with
    | nil => exact hk
    | cons c2 rest =>
      by_cases h1 : ((c2 = '^' && c1 = '+') || (c2 = '+' && c1 = '^')) = true
      · rw [show moveSpecialChars key (c1 :: c2 :: rest) = ("+^" ++ key, String.mk rest) from by
          simp [moveSpecialChars, h1]]
        rw [data_append]
        intro hc
        rcases List.mem_append.1 hc with ha | hb
        · simp at ha
        · exact hk hb
      · by_cases h2 : (c1 = '+' || c1 = '^') = true
        · rw [show moveSpecialChars key (c1 :: c2 :: rest) =
              (String.mk [c1] ++ key, String.mk (c2 :: rest)) from by
            simp only [moveSpecialChars, h1]
            simp [h2]]
          rw [data_append]
          intro hc
          rcases List.mem_append.1 hc with ha | hb
          · have : (':' : Char) = c1 := by simpa using ha
            rcases (by simpa using h2 : c1 = '+' ∨ c1 = '^') with rfl | rfl <;> simp at this
          · exact hk hb
        · rw [show moveSpecialChars key (c1 :: c2 :: rest) = (key, String.mk (c1 :: c2 :: rest)) from by
            simp only [moveSpecialChars, h1]
            simp [h2]]
          exact hk

theorem moveSpecialChars_id (key : String) (v : String) (hv : headNotSpecial v = true) :
    moveSpecialChars key v.data = (key, v) := by
  unfold headNotSpecial at hv
  have hmk : String.mk v.data = v := mk_data v
  cases hvd : v.data with
  | nil =>
    rw [hvd] at hmk
    simp [moveSpecialChars, hmk]
  | cons c1 tail =>
    rw [hvd] at hmk hv
    have hc1 : ¬(c1 = '+') ∧ ¬(c1 = '^') := by simpa using hv
    cases tail with
    | nil => simp [moveSpecialChars, hmk]
    | cons c2 rest =>
      have h1 : ((c2 = '^' && c1 = '+') || (c2 = '+' && c1 = '^')) = false := by
        simp [hc1.1, hc1.2]
      have h2 : (c1 = '+' || c1 = '^') = false := by
        simp [hc1.1, hc1.2]
      simp only [moveSpecialChars, h1, h2]
      simp [hmk]

theorem getFilterKeyValue_ok_chars (t k v : String) (hs : simpleToken t)
    (h : getFilterKeyValue t = .ok (k, v)) :
    (∀ c ∈ k.data, isPlainCh c = true) ∧ (∀ c ∈ v.data, isPlainCh c = true) ∧
    ':' ∉ k.data := by
  obtain ⟨hne, hplain⟩ := hs
  unfold getFilterKeyValue at h
  split at h
  · simp at h
  · rename_i kl0 vl0 hsp
    obtain ⟨heq0, hnc0⟩ := splitFirstColon_eq t.data kl0 vl0 hsp
    have hkl0 : ∀ c ∈ kl0, isPlainCh c = true := fun c hc =>
      hplain c (by rw [heq0]; exact List.mem_append_left _ hc)
    have hvl0 : ∀ c ∈ vl0, isPlainCh c = true := fun c hc =>
      hplain c (by rw [heq0]; exact List.mem_append_right _ (List.mem_cons_of_mem _ hc))
    split at h
    · simp at h
    · rename_i kl vl hu
      have hsub := labelUnwrap_ok_sub t kl0 vl0 kl vl hu
      have hkl : (∀ c ∈ kl, isPlainCh c = true) ∧ ':' ∉ kl := by
        rcases hsub with ⟨h1, h2⟩ | ⟨h1, h2⟩
        · subst h1
          exact ⟨hkl0, hnc0⟩
        · exact ⟨fun c hc => hvl0 c (by rw [h1]; exact List.mem_append_left _ hc), h2⟩
      have hvl : ∀ c ∈ vl, isPlainCh c = true := by
        rcases hsub with ⟨h1, h2⟩ | ⟨h1, h2⟩
        · subst h2
          exact hvl0
        · exact fun c hc =>
            hvl0 c (by rw [h1]; exact List.mem_append_right _ (List.mem_cons_of_mem _ hc))
      simp only [Except.ok.injEq] at h
      have hkey := aliasKey_chars (String.mk kl) hkl.1
      have hkeyc := aliasKey_no_colon (String.mk kl) hkl.2
      have hm := moveSpecialChars_chars (aliasKey (String.mk kl)) vl hkey hvl
      have hmc := moveSpecialChars_no_colon (aliasKey (String.mk kl)) vl hkeyc
      have hk1 : k = (moveSpecialChars (aliasKey (String.mk kl)) vl).1 := by rw [h]
      have hv1 : v = (moveSpecialChars (aliasKey (String.mk kl)) vl).2 := by rw [h]
      rw [hk1, hv1]
      exact ⟨hm.1, hm.2, hmc⟩

theorem getFilterKeyValue_stable (k v : String) (hk : ':' ∉ k.data)
    (hlabel : toLowerStr k ≠ "label") (halias : aliasKey k = k)
    (hv : headNotSpecial v = true) :
    getFilterKeyValue (k ++ ":" ++ v) = .ok (k, v) := by
  have h := getFilterKeyValue_eval k v.data hk hlabel
  rw [mk_data v] at h
  rw [h, halias, moveSpecialChars_id k v hv]

theorem collectFilters_self (us : List String)
    (h : ∀ u ∈ us, ∃ k v, getFilterKeyValue u = .ok (k, v) ∧ k ++ ":" ++ v = u) :
    collectFilters us = .ok us := by
  induction us with
  | nil => rfl
  | cons u us ih =>
    obtain ⟨k, v, hok, heq⟩ := h u (List.mem_cons_self u us)
    simp only [collectFilters, hok, ih (fun x hx => h x (List.mem_cons_of_mem u hx)), heq]

theorem collectFilters_stable_out (toks : List String)
    (hsimple : ∀ t ∈ toks, simpleToken t)
    (hstable : ∀ t ∈ toks, ∃ k v, getFilterKeyValue t = .ok (k, v) ∧
        toLowerStr k ≠ "label" ∧ aliasKey k = k ∧ headNotSpecial v = true) :
    ∃ outs, collectFilters toks = .ok outs ∧
      ∀ u ∈ outs, simpleToken u ∧
        ∃ k v, getFilterKeyValue u = .ok (k, v) ∧ k ++ ":" ++ v = u := by
  induction toks with
  | nil => exact ⟨[], rfl, by simp⟩
  | cons t ts ih =>
    obtain ⟨k, v, hok, hlab, halias, hns⟩ := hstable t (List.mem_cons_self t ts)
    obtain ⟨outs, houts, hprops⟩ := ih (fun x hx => hsimple x (List.mem_cons_of_mem t hx))
      (fun x hx => hstable x (List.mem_cons_of_mem t hx))
    obtain ⟨hkc, hvc, hknc⟩ := getFilterKeyValue_ok_chars t k v
      (hsimple t (List.mem_cons_self t ts)) hok
    have hd : (k ++ ":" ++ v).data = k.data ++ ':' :: v.data := by
      simp only [data_append, List.append_assoc, List.singleton_append]
    refine ⟨(k ++ ":" ++ v) :: outs, ?_, ?_⟩
    · simp only [collectFilters, hok, houts]
    · intro u hu
      rcases List.mem_cons.1 hu with rfl | hu2
      · refine ⟨⟨?_, ?_⟩, k, v, getFilterKeyValue_stable k v hknc hlab halias hns, rfl⟩
        · rw [hd]
          simp
        · intro c hc
          rw [hd] at hc
          rcases List.mem_append.1 hc with h1 | h1
          · exact hkc c h1
          · rcases List.mem_cons.1 h1 with rfl | h2
            · decide
            · exact hvc c h2
      · exact hprops u hu2

/-- C4 (counterexample): "HasLabel:key1" is a well-formed key:value token
    whose value has no special prefix character, and it translates to
    "label:key1"; re-translating that output fails with the malformed-LABEL
    error instead of returning the same string. -/
theorem getListTracesFilter_not_idempotent_on_haslabel :
    GetListTracesFilter "HasLabel:key1" = .ok "label:key1" ∧
    GetListTracesFilter "label:key1" =
      .error "bad filter [label:key1]. Must be in form LABEL:[key]:[value]" :=
  ⟨rfl, rfl⟩

/-- C4 (amended): for every input consisting of simple well-formed key:value
    tokens whose translated key is neither case-insensitively "label" nor one
    of the friendly alias keys (so the alias map leaves it unchanged) and
    whose translated value does not begin with '+' or '^', GetListTracesFilter
    succeeds and is idempotent: re-translating its output returns that same
    output. -/
theorem getListTracesFilter_idempotent (toks : List String)
    (hsimple : ∀ t ∈ toks, simpleToken t)
    (hstable : ∀ t ∈ toks, ∃ k v, getFilterKeyValue t = .ok (k, v) ∧
        toLowerStr k ≠ "label" ∧ aliasKey k = k ∧ headNotSpecial v = true) :
    ∃ out, GetListTracesFilter (strJoin " " toks) = .ok out ∧
      GetListTracesFilter out = .ok out := by
  obtain ⟨outs, houts, hprops⟩ := collectFilters_stable_out toks hsimple hstable
  refine ⟨strJoin " " outs, ?_, ?_⟩
  · unfold GetListTracesFilter
    rw [tokenizeQuery_strJoin toks hsimple, houts]
  · unfold GetListTracesFilter
    rw [tokenizeQuery_strJoin outs (fun u hu => (hprops u hu).1),
      collectFilters_self outs (fun u hu => (hprops u hu).2)]

/-- Witness for the amended C4 on the token list ["Status:200", "key1:value1"]. -/
theorem getListTracesFilter_idempotent_witness :
    ∃ out, GetListTracesFilter (strJoin " " ["Status:200", "key1:value1"]) = .ok out ∧
      GetListTracesFilter out = .ok out :=
  getListTracesFilter_idempotent ["Status:200", "key1:value1"]
    (by decide)
    (by
      intro t ht
      rcases List.mem_cons.1 ht with rfl | ht2
      · exact ⟨"/http/status_code", "200", rfl, by decide, rfl, rfl⟩
      · rw [List.mem_singleton] at ht2
        subst ht2
        exact ⟨"key1", "value1", rfl, by decide, rfl, rfl⟩)

end CloudTrace

